import Mathlib

/-!
Shallow embedding of `tierkreis/frontend/runtime_client.py` and proofs of the
frozen claims about it.  Python dicts are modelled as association lists in
insertion order (updates keep the original position, fresh keys append, as in
CPython).  Fallible Python code is modelled with `Except`; the network is an
explicit oracle function, and each client call also returns the trace of
requests it issued, so that "no request is sent" is a provable statement.
External collaborators (proto decoding, value conversion, the transport) are
abstracted as parameters, exactly at the import boundary of the source file.
-/

namespace Tierkreis

/-- A Python `dict`: an association list in insertion order. -/
abbrev Dict (κ α : Type) := List (κ × α)

/-- Lookup `d[k]` returning `none` when the key is missing (`dict.get`). -/
def dictGet? {κ α : Type} [DecidableEq κ] (d : Dict κ α) (k : κ) : Option α :=
  (d.find? (fun p => p.1 = k)).map (fun p => p.2)

/-- Membership test `k in d`. -/
def dictMem {κ α : Type} [DecidableEq κ] (d : Dict κ α) (k : κ) : Bool :=
  d.any (fun p => p.1 = k)

/-- Assignment `d[k] = v`: an existing key keeps its position and gets the new
value, a fresh key is appended at the end (CPython insertion-order semantics). -/
def dictInsert {κ α : Type} [DecidableEq κ] (d : Dict κ α) (k : κ) (v : α) : Dict κ α :=
  if dictMem d k then d.map (fun p => if p.1 = k then (k, v) else p)
  else d ++ [(k, v)]

/-- The keys of a dict, in insertion order. -/
def dictKeys {κ α : Type} (d : Dict κ α) : List κ :=
  d.map (fun p => p.1)

theorem dictKeys_cons {κ α : Type} (p : κ × α) (d : Dict κ α) :
    dictKeys (p :: d) = p.1 :: dictKeys d := rfl

theorem dictMem_iff_get {κ α : Type} [DecidableEq κ] (d : Dict κ α) (k : κ) :
    dictMem d k = true ↔ (dictGet? d k).isSome := by
  induction d with
  | nil => simp [dictMem, dictGet?]
  | cons p rest ih =>
    by_cases h : p.1 = k
    · simp [dictMem, dictGet?, h]
    · simp only [dictMem, dictGet?] at ih ⊢
      rw [List.any_cons, List.find?_cons_of_neg _ (by simpa using h)]
      simp only [h, decide_False, Bool.false_or]
      exact ih

theorem find?_update_self {κ α : Type} [DecidableEq κ] (d : Dict κ α) (k : κ) (v : α)
    (h : dictMem d k = true) :
    List.find? (fun p => p.1 = k) (d.map (fun p => if p.1 = k then (k, v) else p))
      = some (k, v) := by
  induction d with
  | nil => simp [dictMem] at h
  | cons p rest ih =>
    rw [List.map_cons]
    by_cases hp : p.1 = k
    · rw [if_pos hp]
      exact List.find?_cons_of_pos _ (by simp)
    · rw [if_neg hp, List.find?_cons_of_neg _ (by simpa using hp)]
      exact ih (by simpa [dictMem, hp] using h)

theorem find?_update_ne {κ α : Type} [DecidableEq κ] (d : Dict κ α) (k k' : κ) (v : α)
    (h : k' ≠ k) :
    List.find? (fun p => p.1 = k') (d.map (fun p => if p.1 = k then (k, v) else p))
      = List.find? (fun p => p.1 = k') d := by
  induction d with
  | nil => rfl
  | cons p rest ih =>
    rw [List.map_cons]
    by_cases hp : p.1 = k
    · have h2 : ¬ (p.1 = k') := by rw [hp]; exact fun hk => h hk.symm
      rw [if_pos hp]
      rw [List.find?_cons_of_neg _ (by simp; exact fun hk => h hk.symm)]
      rw [List.find?_cons_of_neg _ (by simpa using h2)]
      exact ih
    · rw [if_neg hp]
      by_cases hq : p.1 = k'
      · rw [List.find?_cons_of_pos _ (by simpa using hq),
          List.find?_cons_of_pos _ (by simpa using hq)]
      · rw [List.find?_cons_of_neg _ (by simpa using hq),
          List.find?_cons_of_neg _ (by simpa using hq)]
        exact ih

theorem find?_not_mem {κ α : Type} [DecidableEq κ] (d : Dict κ α) (k : κ)
    (h : ¬ dictMem d k = true) :
    List.find? (fun p => p.1 = k) d = none := by
  induction d with
  | nil => rfl
  | cons p rest ih =>
    have hp : ¬ (p.1 = k) := fun hk => h (by simp [dictMem, hk])
    rw [List.find?_cons_of_neg _ (by simpa using hp)]
    exact ih fun hk => h (by simp [dictMem] at hk ⊢; exact Or.inr hk)

theorem dictGet?_insert_self {κ α : Type} [DecidableEq κ] (d : Dict κ α) (k : κ) (v : α) :
    dictGet? (dictInsert d k v) k = some v := by
  unfold dictInsert dictGet?
  by_cases h : dictMem d k
  · rw [if_pos h, find?_update_self d k v h]
    rfl
  · rw [if_neg h, List.find?_append, find?_not_mem d k h]
    simp

theorem dictGet?_insert_ne {κ α : Type} [DecidableEq κ] (d : Dict κ α) (k k' : κ) (v : α)
    (h : k' ≠ k) : dictGet? (dictInsert d k v) k' = dictGet? d k' := by
  unfold dictInsert dictGet?
  by_cases hm : dictMem d k
  · rw [if_pos hm, find?_update_ne d k k' v h]
  · rw [if_neg hm, List.find?_append]
    have hone : List.find? (fun p => p.1 = k') [(k, v)] = none := by
      rw [List.find?_cons_of_neg _ (by simp; exact fun hk => h hk.symm)]
      rfl
    rw [hone]
    simp

theorem mem_dictInsert {κ α : Type} [DecidableEq κ] (d : Dict κ α) (k : κ) (v : α)
    (p : κ × α) (h : p ∈ dictInsert d k v) : p = (k, v) ∨ p ∈ d := by
  unfold dictInsert at h
  by_cases hm : dictMem d k
  · rw [if_pos hm] at h
    obtain ⟨q, hq, hfq⟩ := List.mem_map.mp h
    by_cases hqk : q.1 = k
    · simp [hqk] at hfq
      exact Or.inl hfq.symm
    · simp [hqk] at hfq
      exact Or.inr (hfq ▸ hq)
  · rw [if_neg hm] at h
    rcases List.mem_append.mp h with h1 | h2
    · exact Or.inr h1
    · simp at h2
      exact Or.inl h2

theorem dictKeys_insert_nodup {κ α : Type} [DecidableEq κ] (d : Dict κ α) (k : κ) (v : α)
    (h : (dictKeys d).Nodup) : (dictKeys (dictInsert d k v)).Nodup := by
  unfold dictInsert
  by_cases hm : dictMem d k
  · rw [if_pos hm]
    have hkeys : dictKeys (d.map (fun p => if p.1 = k then (k, v) else p)) = dictKeys d := by
      unfold dictKeys
      rw [List.map_map]
      apply List.map_congr_left
      intro p _
      by_cases hp : p.1 = k <;> simp [hp]
    rw [hkeys]; exact h
  · rw [if_neg hm]
    unfold dictKeys
    rw [List.map_append]
    simp only [List.map_cons, List.map_nil]
    apply List.Nodup.append h (List.nodup_singleton k)
    intro a ha hb
    simp at hb
    rw [hb] at ha
    have : dictMem d k = true := by
      unfold dictKeys at ha
      simp at ha
      obtain ⟨b, hab⟩ := ha
      exact List.any_eq_true.mpr ⟨(k, b), hab, by simp⟩
    exact hm this

/-- A protobuf "oneof" group as exposed by `betterproto.which_one_of`:
`none` when no variant of the group is set, otherwise the set variant's field
name together with its payload.  `which_one_of` returns `("", None)` for an
unset group and `(field_name, value)` for a set one. -/
def whichOneOf {P : Type} : Option (String × P) → String × Option P
  | none => ("", none)
  | some (n, p) => (n, some p)

/-- Handle type `TaskHandle` from the source: a frozen dataclass wrapping the task id. -/
structure TaskHandle where
  task_id : String
deriving DecidableEq

/-- One entry of the wire `ListTasksResponse`: a task id and a status oneof. -/
structure ProtoTaskEntry (P : Type) where
  id : String
  status : Option (String × P)

/-- The per-task status label computed inside the `list_tasks` loop.
The source guard is `status_name is (None or "")`; `(None or "")` evaluates to
`""`, and `which_one_of` never returns `None` for the name, so with CPython's
interned empty string the guard is an equality test against `""`. -/
def taskStatusLabel {P : Type} (task : ProtoTaskEntry P) : String :=
  let status_name := (whichOneOf task.status).1
  if status_name = "" then "running" else status_name

/-- Method `RuntimeClient.list_tasks`, applied to the decoded server response: builds
the handle-to-status dict exactly as the source loop does. -/
def list_tasks {P : Type} (tasks : List (ProtoTaskEntry P)) : Dict TaskHandle String :=
  tasks.foldl (fun result task => dictInsert result ⟨task.id⟩ (taskStatusLabel task)) []

theorem list_tasks_foldl_skip {P : Type} (tasks : List (ProtoTaskEntry P))
    (acc : Dict TaskHandle String) (tid : String)
    (h : ∀ t ∈ tasks, t.id ≠ tid) :
    dictGet? (tasks.foldl (fun result task =>
        dictInsert result ⟨task.id⟩ (taskStatusLabel task)) acc) ⟨tid⟩
      = dictGet? acc ⟨tid⟩ := by
  induction tasks generalizing acc with
  | nil => rfl
  | cons u rest ih =>
    rw [List.foldl_cons, ih _ (fun t ht => h t (List.mem_cons_of_mem u ht))]
    exact dictGet?_insert_ne _ _ _ _ (fun hk =>
      h u (List.mem_cons_self u rest) ((congrArg TaskHandle.task_id hk).symm))

theorem list_tasks_foldl_lookup {P : Type} (tasks : List (ProtoTaskEntry P))
    (acc : Dict TaskHandle String) (t : ProtoTaskEntry P)
    (hmem : t ∈ tasks) (hnodup : (tasks.map (fun u => u.id)).Nodup) :
    dictGet? (tasks.foldl (fun result task =>
        dictInsert result ⟨task.id⟩ (taskStatusLabel task)) acc) ⟨t.id⟩
      = some (taskStatusLabel t) := by
  induction tasks generalizing acc with
  | nil => cases hmem
  | cons u rest ih =>
    rw [List.map_cons, List.nodup_cons] at hnodup
    rcases List.mem_cons.mp hmem with rfl | hrest
    · rw [List.foldl_cons]
      rw [list_tasks_foldl_skip rest _ t.id (fun u hu hid => hnodup.1 (hid ▸ List.mem_map_of_mem _ hu))]
      exact dictGet?_insert_self _ _ _
    · exact List.foldl_cons _ _ ▸ ih _ hrest hnodup.2

theorem list_tasks_values_nonblank {P : Type} (tasks : List (ProtoTaskEntry P))
    (acc : Dict TaskHandle String)
    (hacc : ∀ p ∈ acc, p.2 ≠ "") :
    ∀ p ∈ tasks.foldl (fun result task =>
        dictInsert result ⟨task.id⟩ (taskStatusLabel task)) acc, p.2 ≠ "" := by
  induction tasks generalizing acc with
  | nil => exact hacc
  | cons u rest ih =>
    rw [List.foldl_cons]
    refine ih _ (fun p hp => ?_)
    rcases mem_dictInsert _ _ _ _ hp with rfl | hold
    · show taskStatusLabel u ≠ ""
      unfold taskStatusLabel
      by_cases hs : (whichOneOf u.status).1 = "" <;> simp [hs]
    · exact hacc p hold

/-- C1: every task entry whose wire status discriminator is empty or absent is
mapped by `list_tasks` to the label `"running"`, and no entry of the returned
dict ever carries a blank status label. -/
theorem list_tasks_defaults_running {P : Type} (tasks : List (ProtoTaskEntry P))
    (hnodup : (tasks.map (fun u => u.id)).Nodup) :
    (∀ t ∈ tasks, (t.status = none ∨ (∃ p, t.status = some ("", p))) →
        dictGet? (list_tasks tasks) ⟨t.id⟩ = some "running") ∧
    (∀ p ∈ list_tasks tasks, p.2 ≠ "") := by
  constructor
  · intro t ht hstat
    have hlabel : taskStatusLabel t = "running" := by
      unfold taskStatusLabel
      rcases hstat with h0 | ⟨p, hp⟩
      · rw [h0]; rfl
      · rw [hp]; rfl
    rw [list_tasks, list_tasks_foldl_lookup tasks [] t ht hnodup, hlabel]
  · exact list_tasks_values_nonblank tasks [] (by intro p hp; cases hp)

/-- Witness for C1 at a concrete response: two tasks, one with an absent
status oneof and one with an empty discriminator, both map to `"running"`,
and no entry is blank. -/
theorem list_tasks_defaults_running_witness :
    dictGet? (list_tasks [⟨"t1", (none : Option (String × Unit))⟩, ⟨"t2", some ("", ())⟩])
        ⟨"t1"⟩ = some "running" ∧
    dictGet? (list_tasks [⟨"t1", (none : Option (String × Unit))⟩, ⟨"t2", some ("", ())⟩])
        ⟨"t2"⟩ = some "running" := by
  have h := list_tasks_defaults_running
    [⟨"t1", (none : Option (String × Unit))⟩, ⟨"t2", some ("", ())⟩] (by decide)
  refine ⟨h.1 ⟨"t1", none⟩ (by simp) (Or.inl rfl),
    h.1 ⟨"t2", some ("", ())⟩ (by simp) (Or.inr ⟨(), rfl⟩)⟩

/-- The exceptions the embedded client code raises, with the payloads the
source attaches to them.  `V` is the type of native Python input values, `TE`
the type of decoded `TierkreisTypeErrors`. -/
inductive ClientErr (V TE : Type) where
  | inputConversion (name : String) (value : V)
  | typeErrors (errs : TE)
  | runtimeError (msg : String)
  | assertionFailed

/-- The requests the embedded client calls can put on the wire. -/
inductive WireRequest (G T : Type) where
  | runTask (graph : G) (inputs : Dict String T)
  | awaitTaskReq (id : String)

/-- The wire response to `run_task` as `betterproto` exposes it: the name
reported by `which_one_of(decoded, "result")` (empty when the oneof is unset)
and the two oneof field values, which read as proto defaults when unset.
`PE` is the proto form of the type errors. -/
structure RunTaskResponse (PE : Type) where
  resultName : String
  task_id : String
  type_errors : PE

/-- The input-conversion loop at the top of `RuntimeClient.start_task`.
`conv` stands for `TierkreisValue.from_python`, with `none` playing the
`IncompatiblePyType` exception; the error carries `(key, val)` exactly as
`InputConversionError(key, val)` does. -/
def convert_inputs {V T : Type} (conv : V → Option T) :
    List (String × V) → Dict String T → Except (String × V) (Dict String T)
  | [], inputs => .ok inputs
  | (key, val) :: rest, inputs =>
    match conv val with
    | some tv => convert_inputs conv rest (dictInsert inputs key tv)
    | none => .error (key, val)

/-- Method `RuntimeClient.start_task`: convert the inputs, then (and only then) send
one `run_task` request and decode the discriminated response.  `server` is
the remote oracle; the proto encoding of graph and inputs is abstracted.  The
second component is the trace of issued requests. -/
def start_task {V T G PE TE : Type} (conv : V → Option T)
    (typeErrorsFromProto : PE → TE)
    (server : G → Dict String T → RunTaskResponse PE)
    (graph : G) (py_inputs : List (String × V)) :
    Except (ClientErr V TE) TaskHandle × List (WireRequest G T) :=
  match convert_inputs conv py_inputs [] with
  | .error kv => (.error (.inputConversion kv.1 kv.2), [])
  | .ok inputs =>
    let decoded := server graph inputs
    if decoded.resultName = "task_id" then
      (.ok ⟨decoded.task_id⟩, [.runTask graph inputs])
    else
      (.error (.typeErrors (typeErrorsFromProto decoded.type_errors)),
        [.runTask graph inputs])

/-- The wire response to `await_task`: the status oneof of the returned task
message, inspected with `which_one_of(decoded.task, "status")`.  `P` is the
payload type of the set variant; a success payload carries the result struct. -/
structure AwaitTaskResponse (P : Type) where
  status : Option (String × P)

/-- Method `RuntimeClient.await_task`: issue one `await_task` request, then dispatch
on the status discriminator.  `getMap` reads `.map` of the success payload,
`structFromProtoDict` stands for `StructValue.from_proto_dict(...).values`,
`pyFormat` is the f-string rendering of `status_value`, and the failed-assert
branch (a set "success" variant with no payload) is unreachable under the
oneof model. -/
def await_task {P PT T G V TE : Type}
    (getMap : P → Dict String PT)
    (structFromProtoDict : Dict String PT → Dict String T)
    (pyFormat : Option P → String)
    (server : String → AwaitTaskResponse P)
    (task : TaskHandle) :
    Except (ClientErr V TE) (Dict String T) × List (WireRequest G T) :=
  let decoded := server task.task_id
  let sv := whichOneOf decoded.status
  if sv.1 ≠ "success" then
    (.error (.runtimeError ("Task execution failed with message:\n" ++ pyFormat sv.2)),
      [.awaitTaskReq task.task_id])
  else
    match sv.2 with
    | some status_value =>
      (.ok (structFromProtoDict (getMap status_value)), [.awaitTaskReq task.task_id])
    | none => (.error .assertionFailed, [.awaitTaskReq task.task_id])

theorem convert_inputs_first_error {V T : Type} (conv : V → Option T)
    (l : List (String × V)) (acc : Dict String T) (key : String) (val : V)
    (h : l.find? (fun p => (conv p.2).isNone) = some (key, val)) :
    convert_inputs conv l acc = .error (key, val) := by
  induction l generalizing acc with
  | nil => cases h
  | cons p rest ih =>
    cases p with
    | mk k v =>
      by_cases hc : (conv v).isNone
      · rw [List.find?_cons_of_pos _ (by simpa using hc)] at h
        have hkv : k = key ∧ v = val := by
          have := Option.some.inj h
          exact ⟨congrArg Prod.fst this, congrArg Prod.snd this⟩
        obtain ⟨rfl, rfl⟩ := hkv
        unfold convert_inputs
        rw [Option.isNone_iff_eq_none.mp hc]
      · rw [List.find?_cons_of_neg _ (by simpa using hc)] at h
        unfold convert_inputs
        cases hcv : conv v with
        | none => simp [hcv] at hc
        | some tv => exact ih _ h

/-- C2: an input mapping with at least one unconvertible value makes
`start_task` raise `InputConversionError` naming the first unconvertible key
in iteration order, and no request reaches the wire. -/
theorem start_task_failfast {V T G PE TE : Type} (conv : V → Option T)
    (typeErrorsFromProto : PE → TE)
    (server : G → Dict String T → RunTaskResponse PE)
    (graph : G) (py_inputs : List (String × V))
    (hbad : ∃ p ∈ py_inputs, conv p.2 = none) :
    ∃ key val, py_inputs.find? (fun p => (conv p.2).isNone) = some (key, val) ∧
      start_task conv typeErrorsFromProto server graph py_inputs
        = (.error (.inputConversion key val), []) := by
  obtain ⟨p, hp, hcp⟩ := hbad
  have hsome : (py_inputs.find? (fun p => (conv p.2).isNone)).isSome := by
    rw [List.find?_isSome]
    exact ⟨p, hp, by simp [hcp]⟩
  obtain ⟨q, hq⟩ := Option.isSome_iff_exists.mp hsome
  refine ⟨q.1, q.2, by rw [hq], ?_⟩
  unfold start_task
  rw [convert_inputs_first_error conv py_inputs [] q.1 q.2 (by rw [hq])]

/-- Witness for C2: with the identity conversion on `Option Unit` values, an
input list whose second entry is unconvertible fails on that entry's key with
an empty request trace. -/
theorem start_task_failfast_witness :
    (∃ p ∈ [("a", some ()), ("b", (none : Option Unit))], id p.2 = none) ∧
    ∃ key val,
      ([("a", some ()), ("b", (none : Option Unit))].find?
          (fun p => (id p.2).isNone) = some (key, val)) ∧
      start_task (id : Option Unit → Option Unit) (fun e : Unit => e)
          (fun (_ : Unit) (_ : Dict String Unit) =>
            RunTaskResponse.mk "task_id" "t" ()) () [("a", some ()), ("b", none)]
        = (.error (.inputConversion key val), []) := by
  refine ⟨⟨("b", none), by simp, rfl⟩, ?_⟩
  exact start_task_failfast (id : Option Unit → Option Unit) (fun e : Unit => e)
    (fun _ _ => RunTaskResponse.mk "task_id" "t" ()) () [("a", some ()), ("b", none)]
    ⟨("b", none), by simp, rfl⟩

/-- C4: after successful input conversion, `start_task` returns the handle
carrying the response's task id exactly when the result oneof selects
`task_id`, raises the decoded type errors otherwise, and any returned handle
is the response's task id (never an absent handle). -/
theorem start_task_result_dispatch {V T G PE TE : Type} (conv : V → Option T)
    (typeErrorsFromProto : PE → TE)
    (server : G → Dict String T → RunTaskResponse PE)
    (graph : G) (py_inputs : List (String × V)) (inputs : Dict String T)
    (hconv : convert_inputs conv py_inputs [] = .ok inputs) :
    ((server graph inputs).resultName = "task_id" →
      start_task conv typeErrorsFromProto server graph py_inputs
        = (.ok ⟨(server graph inputs).task_id⟩, [.runTask graph inputs])) ∧
    ((server graph inputs).resultName ≠ "task_id" →
      start_task conv typeErrorsFromProto server graph py_inputs
        = (.error (.typeErrors (typeErrorsFromProto (server graph inputs).type_errors)),
            [.runTask graph inputs])) ∧
    (∀ h, (start_task conv typeErrorsFromProto server graph py_inputs).1 = .ok h →
      h = ⟨(server graph inputs).task_id⟩ ∧ (server graph inputs).resultName = "task_id") := by
  unfold start_task
  rw [hconv]
  dsimp only
  by_cases hname : (server graph inputs).resultName = "task_id"
  · refine ⟨fun _ => by rw [if_pos hname], fun hne => absurd hname hne, ?_⟩
    intro h hh
    rw [if_pos hname] at hh
    exact ⟨(Except.ok.inj hh).symm, hname⟩
  · refine ⟨fun he => absurd he hname, fun _ => by rw [if_neg hname], ?_⟩
    intro h hh
    rw [if_neg hname] at hh
    cases hh

/-- Witness for C4: a server answering with the `task_id` variant yields the
handle for that id, and one answering with the `type_errors` variant raises
them. -/
theorem start_task_result_dispatch_witness :
    start_task (some : Unit → Option Unit) (fun e : String => e)
        (fun (_ : Unit) (_ : Dict String Unit) => RunTaskResponse.mk "task_id" "t7" "boom")
        () [("x", ())]
      = (.ok ⟨"t7"⟩, [.runTask () [("x", ())]]) ∧
    start_task (some : Unit → Option Unit) (fun e : String => e)
        (fun (_ : Unit) (_ : Dict String Unit) => RunTaskResponse.mk "type_errors" "" "boom")
        () [("x", ())]
      = (.error (.typeErrors "boom"), [.runTask () [("x", ())]]) := by
  constructor
  · exact (start_task_result_dispatch (some : Unit → Option Unit) (fun e : String => e)
      (fun _ _ => RunTaskResponse.mk "task_id" "t7" "boom") () [("x", ())]
      [("x", ())] rfl).1 rfl
  · exact (start_task_result_dispatch (some : Unit → Option Unit) (fun e : String => e)
      (fun _ _ => RunTaskResponse.mk "type_errors" "" "boom") () [("x", ())]
      [("x", ())] rfl).2.1 (by decide)

/-- C3: `await_task` raises a runtime error whose message carries the
formatted server status payload whenever the status discriminator is not
"success"; when it is "success" it decodes the result struct and returns the
output mapping; and it returns a mapping only in that case, so a non-success
response never yields a (partial) result. -/
theorem await_task_status_dispatch {P PT T G V TE : Type}
    (getMap : P → Dict String PT)
    (structFromProtoDict : Dict String PT → Dict String T)
    (pyFormat : Option P → String)
    (server : String → AwaitTaskResponse P)
    (task : TaskHandle) :
    ((whichOneOf (server task.task_id).status).1 ≠ "success" →
      (await_task getMap structFromProtoDict pyFormat server task
          : Except (ClientErr V TE) (Dict String T) × List (WireRequest G T))
        = (.error (.runtimeError ("Task execution failed with message:\n"
            ++ pyFormat (whichOneOf (server task.task_id).status).2)),
          [.awaitTaskReq task.task_id])) ∧
    (∀ p, (server task.task_id).status = some ("success", p) →
      (await_task getMap structFromProtoDict pyFormat server task
          : Except (ClientErr V TE) (Dict String T) × List (WireRequest G T))
        = (.ok (structFromProtoDict (getMap p)), [.awaitTaskReq task.task_id])) ∧
    (∀ m, (await_task getMap structFromProtoDict pyFormat server task
          : Except (ClientErr V TE) (Dict String T) × List (WireRequest G T)).1
        = .ok m →
      ∃ p, (server task.task_id).status = some ("success", p)
        ∧ m = structFromProtoDict (getMap p)) := by
  cases hst : (server task.task_id).status with
  | none =>
    refine ⟨fun _ => ?_, fun p hp => ?_, fun m hm => ?_⟩
    · simp [await_task, hst, whichOneOf]
    · exact nomatch hp
    · simp [await_task, hst, whichOneOf] at hm
  | some np =>
    cases np with
    | mk n p =>
      by_cases hn : n = "success"
      · subst hn
        refine ⟨fun hne => (hne rfl).elim, fun q hq => ?_, fun m hm => ?_⟩
        · have hpq : p = q := congrArg Prod.snd (Option.some.inj hq)
          subst hpq
          simp [await_task, hst, whichOneOf]
        · simp [await_task, hst, whichOneOf] at hm
          exact ⟨p, rfl, hm.symm⟩
      · refine ⟨fun _ => ?_, fun q hq => ?_, fun m hm => ?_⟩
        · simp [await_task, hst, whichOneOf, hn]
        · exact absurd (congrArg Prod.fst (Option.some.inj hq)) hn
        · simp [await_task, hst, whichOneOf, hn] at hm

/-- Witness for C3: a server reporting an "error" status makes `await_task`
raise the runtime error carrying the payload text, and a server reporting
"success" yields the decoded output mapping. -/
theorem await_task_status_dispatch_witness :
    (await_task (fun _ : String => ([] : Dict String Nat)) id (fun o => o.getD "None")
        (fun _ => ⟨some ("error", "oops")⟩) ⟨"t1"⟩
        : Except (ClientErr Unit Unit) (Dict String Nat) × List (WireRequest Unit Nat))
      = (.error (.runtimeError "Task execution failed with message:\noops"),
          [.awaitTaskReq "t1"]) ∧
    (await_task (fun _ : String => [("out", 5)]) id (fun o => o.getD "None")
        (fun _ => ⟨some ("success", "ignored")⟩) ⟨"t2"⟩
        : Except (ClientErr Unit Unit) (Dict String Nat) × List (WireRequest Unit Nat))
      = (.ok [("out", 5)], [.awaitTaskReq "t2"]) := by
  constructor
  · exact (await_task_status_dispatch (fun _ : String => ([] : Dict String Nat)) id
      (fun o => o.getD "None") (fun _ => ⟨some ("error", "oops")⟩) ⟨"t1"⟩).1
      (by decide)
  · exact (await_task_status_dispatch (fun _ : String => [("out", 5)]) id
      (fun o => o.getD "None") (fun _ => ⟨some ("success", "ignored")⟩) ⟨"t2"⟩).2.1
      "ignored" rfl

/-- Method `RuntimeClient.run_graph` exactly as the source writes it: start the
task, then await the returned handle, returning the awaited outputs; the
request trace is the concatenation of the two stages' traces. -/
def run_graph {V T G PE TE P PT : Type} (conv : V → Option T)
    (typeErrorsFromProto : PE → TE)
    (getMap : P → Dict String PT)
    (structFromProtoDict : Dict String PT → Dict String T)
    (pyFormat : Option P → String)
    (serverRun : G → Dict String T → RunTaskResponse PE)
    (serverAwait : String → AwaitTaskResponse P)
    (graph : G) (py_inputs : List (String × V)) :
    Except (ClientErr V TE) (Dict String T) × List (WireRequest G T) :=
  match start_task conv typeErrorsFromProto serverRun graph py_inputs with
  | (.error e, reqs) => (.error e, reqs)
  | (.ok task, reqs1) =>
    let a := (await_task getMap structFromProtoDict pyFormat serverAwait task
      : Except (ClientErr V TE) (Dict String T) × List (WireRequest G T))
    (a.1, reqs1 ++ a.2)

/-- Modelled from the spec: "`run_graph(graph, inputs)`: convenience
composition = `start_task` followed immediately by `await_task`; no retry — a
failure in either stage propagates unchanged."  Stated independently of
`run_graph` as the `Except`-style composition of the two stages with
concatenated request traces and errors passed through unmodified. -/
def runGraphComposition {V T G PE TE P PT : Type} (conv : V → Option T)
    (typeErrorsFromProto : PE → TE)
    (getMap : P → Dict String PT)
    (structFromProtoDict : Dict String PT → Dict String T)
    (pyFormat : Option P → String)
    (serverRun : G → Dict String T → RunTaskResponse PE)
    (serverAwait : String → AwaitTaskResponse P)
    (graph : G) (py_inputs : List (String × V)) :
    Except (ClientErr V TE) (Dict String T) × List (WireRequest G T) :=
  let s := start_task conv typeErrorsFromProto serverRun graph py_inputs
  match s.1 with
  | .error e => (.error e, s.2)
  | .ok task =>
    let a := (await_task getMap structFromProtoDict pyFormat serverAwait task
      : Except (ClientErr V TE) (Dict String T) × List (WireRequest G T))
    (a.1, s.2 ++ a.2)

/-- C6: `run_graph` behaves exactly as `start_task` followed by `await_task`:
the same success result, every exception of either stage propagated unchanged,
and the two stages' requests in order with nothing issued in between. -/
theorem run_graph_eq_composition {V T G PE TE P PT : Type} (conv : V → Option T)
    (typeErrorsFromProto : PE → TE)
    (getMap : P → Dict String PT)
    (structFromProtoDict : Dict String PT → Dict String T)
    (pyFormat : Option P → String)
    (serverRun : G → Dict String T → RunTaskResponse PE)
    (serverAwait : String → AwaitTaskResponse P)
    (graph : G) (py_inputs : List (String × V)) :
    run_graph conv typeErrorsFromProto getMap structFromProtoDict pyFormat
        serverRun serverAwait graph py_inputs
      = runGraphComposition conv typeErrorsFromProto getMap structFromProtoDict
          pyFormat serverRun serverAwait graph py_inputs := by
  unfold run_graph runGraphComposition
  rcases hs : start_task conv typeErrorsFromProto serverRun graph py_inputs with ⟨r, reqs⟩
  cases r <;> rfl

/-- The worker as `with_runtime_client` sees it: the callback address that an
earlier inbound request may have extracted. -/
structure WorkerModel where
  callback : Option (String × Nat)

/-- Helper `_gen_auth_injector` from the source: the returned hook stamps the two
metadata fields `token` and `key` onto an outgoing request's metadata. -/
def genAuthInjector (login pwd : String) :
    Dict String String → Dict String String :=
  fun metadata => dictInsert (dictInsert metadata "token" login) "key" pwd

/-- A `RuntimeClient` bound to an opened channel, as constructed inside the
wrapper; only the channel address matters to the claims. -/
structure BoundClient where
  channel : String × Nat
deriving DecidableEq

/-- What one invocation of the wrapper did: which addresses were connected to,
which send-request hooks were registered on the opened channel, and the call's
outcome (`Except String` models raising `RuntimeError(msg)`). -/
structure CallOutcome (R : Type) where
  connects : List (String × Nat)
  hooks : List (Dict String String → Dict String String)
  result : Except String R

/-- The `wrapped_func` closure produced by `with_runtime_client(worker)` for a
handler `func`, applied to `args`: fail before connecting when the callback
address is missing; otherwise open one channel, look up the two secrets via
`keyring.get_password`, register the auth hook iff both are present, and call
the handler with a client bound to the channel prepended to its arguments. -/
def wrapped_func {A R : Type} (worker : WorkerModel)
    (keyring_get_password : String → String → Option String)
    (keyringService : String)
    (func : List (BoundClient ⊕ A) → R)
    (args : List A) : CallOutcome R :=
  match worker.callback with
  | none => ⟨[], [], .error "Callback address has not been extracted from request."⟩
  | some cb =>
    let tokenSecret := keyring_get_password keyringService "token"
    let keySecret := keyring_get_password keyringService "key"
    let hooks :=
      match tokenSecret, keySecret with
      | some t, some k => [genAuthInjector t k]
      | _, _ => []
    ⟨[cb], hooks, .ok (func (.inl ⟨cb⟩ :: args.map .inr))⟩

/-- Sending a request over the channel runs every registered hook on the
request's metadata, in registration order. -/
def sendOverChannel (hooks : List (Dict String String → Dict String String))
    (metadata : Dict String String) : Dict String String :=
  hooks.foldl (fun m h => h m) metadata

theorem genAuthInjector_stamps (t k : String) (m : Dict String String) :
    dictGet? (genAuthInjector t k m) "token" = some t ∧
    dictGet? (genAuthInjector t k m) "key" = some k := by
  unfold genAuthInjector
  constructor
  · rw [dictGet?_insert_ne _ _ _ _ (by decide)]
    exact dictGet?_insert_self _ _ _
  · exact dictGet?_insert_self _ _ _

/-- C7: with the worker's callback address absent, the wrapped call raises the
configuration error and no connection attempt is made. -/
theorem wrapped_func_missing_callback {A R : Type} (worker : WorkerModel)
    (keyring_get_password : String → String → Option String)
    (keyringService : String)
    (func : List (BoundClient ⊕ A) → R) (args : List A)
    (h : worker.callback = none) :
    (wrapped_func worker keyring_get_password keyringService func args).connects = [] ∧
    (wrapped_func worker keyring_get_password keyringService func args).result
      = .error "Callback address has not been extracted from request." := by
  unfold wrapped_func
  rw [h]
  exact ⟨rfl, rfl⟩

/-- Witness for C7 on a concrete worker with no callback address. -/
theorem wrapped_func_missing_callback_witness :
    (wrapped_func ⟨none⟩ (fun _ _ => none) "tierkreis"
        (fun (_ : List (BoundClient ⊕ Unit)) => ()) []).connects = [] ∧
    (wrapped_func ⟨none⟩ (fun _ _ => none) "tierkreis"
        (fun (_ : List (BoundClient ⊕ Unit)) => ()) []).result
      = .error "Callback address has not been extracted from request." :=
  wrapped_func_missing_callback ⟨none⟩ (fun _ _ => none) "tierkreis"
    (fun _ => ()) [] rfl

/-- C8: with the callback address present, the wrapper registers the metadata
hook exactly when both secrets are in the credential store — the hook stamps
`token` and `key` on every request sent over the channel — registers nothing
and raises no error when either secret is absent, and in both cases invokes
the handler with a client bound to the opened channel prepended to its
argument list. -/
theorem wrapped_func_auth_behavior {A R : Type} (worker : WorkerModel)
    (keyring_get_password : String → String → Option String)
    (keyringService : String)
    (func : List (BoundClient ⊕ A) → R) (args : List A)
    (cb : String × Nat) (h : worker.callback = some cb) :
    (∀ t k, keyring_get_password keyringService "token" = some t →
        keyring_get_password keyringService "key" = some k →
      (wrapped_func worker keyring_get_password keyringService func args).hooks
          = [genAuthInjector t k] ∧
      ∀ m, dictGet? (sendOverChannel
              (wrapped_func worker keyring_get_password keyringService func args).hooks m)
            "token" = some t ∧
          dictGet? (sendOverChannel
              (wrapped_func worker keyring_get_password keyringService func args).hooks m)
            "key" = some k) ∧
    ((keyring_get_password keyringService "token" = none ∨
        keyring_get_password keyringService "key" = none) →
      (wrapped_func worker keyring_get_password keyringService func args).hooks = []) ∧
    (wrapped_func worker keyring_get_password keyringService func args).result
      = .ok (func (.inl ⟨cb⟩ :: args.map .inr)) ∧
    (wrapped_func worker keyring_get_password keyringService func args).connects = [cb] := by
  unfold wrapped_func
  rw [h]
  dsimp only
  refine ⟨fun t k ht hk => ?_, fun habs => ?_, rfl, rfl⟩
  · rw [ht, hk]
    refine ⟨rfl, fun m => ?_⟩
    show dictGet? (sendOverChannel [genAuthInjector t k] m) "token" = some t ∧
      dictGet? (sendOverChannel [genAuthInjector t k] m) "key" = some k
    unfold sendOverChannel
    rw [List.foldl_cons, List.foldl_nil]
    exact genAuthInjector_stamps t k m
  · rcases habs with h0 | h0
    · rw [h0]
    · rw [h0]
      cases keyring_get_password keyringService "token" <;> rfl

/-- Witness for C8: with both secrets present the hook list stamps both
fields; with the key secret absent no hook is registered; in both situations
the handler runs with the bound client prepended. -/
theorem wrapped_func_auth_behavior_witness :
    ((wrapped_func ⟨some ("h", 1)⟩
        (fun _ n => if n = "token" then some "T" else some "K") "svc"
        (fun (l : List (BoundClient ⊕ Unit)) => l) []).hooks.length = 1 ∧
      dictGet? (sendOverChannel
          (wrapped_func ⟨some ("h", 1)⟩
            (fun _ n => if n = "token" then some "T" else some "K") "svc"
            (fun (l : List (BoundClient ⊕ Unit)) => l) []).hooks [])
        "token" = some "T") ∧
    (wrapped_func ⟨some ("h", 1)⟩ (fun _ n => if n = "token" then some "T" else none)
        "svc" (fun (l : List (BoundClient ⊕ Unit)) => l) []).hooks = [] ∧
    (wrapped_func ⟨some ("h", 1)⟩ (fun _ n => if n = "token" then some "T" else none)
        "svc" (fun (l : List (BoundClient ⊕ Unit)) => l) []).result
      = .ok [.inl ⟨("h", 1)⟩] := by
  have hboth := wrapped_func_auth_behavior ⟨some ("h", 1)⟩
    (fun _ n => if n = "token" then some "T" else some "K") "svc"
    (fun (l : List (BoundClient ⊕ Unit)) => l) [] ("h", 1) rfl
  have hmiss := wrapped_func_auth_behavior ⟨some ("h", 1)⟩
    (fun _ n => if n = "token" then some "T" else none) "svc"
    (fun (l : List (BoundClient ⊕ Unit)) => l) [] ("h", 1) rfl
  obtain ⟨hh, hst⟩ := hboth.1 "T" "K" rfl rfl
  refine ⟨⟨by rw [hh]; rfl, (hst []).1⟩, hmiss.2.1 (Or.inr rfl), hmiss.2.2.1⟩

/-- Method `RuntimeClient._stub_gen`: insert-if-absent into the per-client stub
cache, then return the cached stub.  `C` is the channel type, `S` the stub
type; `stub_t channel` models constructing `stub_t(self._channel)`.  Returns
the looked-up stub together with the updated cache. -/
def stub_gen {C S : Type} (channel : C) (stubs : Dict String S) (key : String)
    (stub_t : C → S) : Option S × Dict String S :=
  let stubs' :=
    if dictMem stubs key then stubs else dictInsert stubs key (stub_t channel)
  (dictGet? stubs' key, stubs')

/-- C9: the stub cache is insert-if-absent — the first access to a key
constructs and stores the stub, every later access to that key returns the
cached stub with the cache unmodified, and an access never alters the cached
stub of a different key. -/
theorem stub_gen_insert_if_absent {C S : Type} (channel : C) (stubs : Dict String S)
    (key : String) (stub_t : C → S) :
    (dictGet? stubs key = none →
      stub_gen channel stubs key stub_t
        = (some (stub_t channel), dictInsert stubs key (stub_t channel))) ∧
    (∀ s, dictGet? stubs key = some s →
      stub_gen channel stubs key stub_t = (some s, stubs)) ∧
    (∀ k', k' ≠ key →
      dictGet? (stub_gen channel stubs key stub_t).2 k' = dictGet? stubs k') := by
  refine ⟨fun hnone => ?_, fun s hs => ?_, fun k' hk' => ?_⟩
  · have hmem : ¬ dictMem stubs key = true := by
      rw [dictMem_iff_get, hnone]
      simp
    unfold stub_gen
    rw [if_neg hmem]
    dsimp only
    rw [dictGet?_insert_self]
  · have hmem : dictMem stubs key = true := by
      rw [dictMem_iff_get, hs]
      rfl
    unfold stub_gen
    rw [if_pos hmem]
    dsimp only
    rw [hs]
  · unfold stub_gen
    by_cases hmem : dictMem stubs key
    · rw [if_pos hmem]
    · rw [if_neg hmem]
      dsimp only
      exact dictGet?_insert_ne _ _ _ _ hk'

/-- Witness for C9 at a concrete cache: first access to "runtime" stores the
stub, a second access returns it unchanged, and the "signature" slot is
untouched throughout. -/
theorem stub_gen_insert_if_absent_witness :
    stub_gen () [("signature", 3)] "runtime" (fun _ => 7)
      = (some 7, [("signature", 3), ("runtime", 7)]) ∧
    stub_gen () [("signature", 3), ("runtime", 7)] "runtime" (fun _ => 7)
      = (some 7, [("signature", 3), ("runtime", 7)]) ∧
    dictGet? (stub_gen () [("signature", 3)] "runtime" (fun _ => 7)).2 "signature"
      = dictGet? [("signature", 3)] "signature" := by
  have h1 := stub_gen_insert_if_absent () [("signature", 3)] "runtime" (fun _ => 7)
  have h2 := stub_gen_insert_if_absent () [("signature", 3), ("runtime", 7)] "runtime"
    (fun _ => 7)
  refine ⟨?_, h2.2.1 7 (by decide), h1.2.2 "signature" (by decide)⟩
  have := h1.1 (by decide)
  rw [this]
  rfl

/-- Python `str.split(sep, maxsplit)` on the character list, for a one-character
separator, as Python performs it: at most `maxsplit` splits happen and any
remainder stays whole in the last piece.  `acc` holds the current piece,
reversed. -/
def pySplitAux (sep : Char) : List Char → Nat → List Char → List (List Char)
  | [], _, acc => [acc.reverse]
  | c :: rest, 0, acc => pySplitAux sep rest 0 (c :: acc)
  | c :: rest, m + 1, acc =>
    if c = sep then acc.reverse :: pySplitAux sep rest m []
    else pySplitAux sep rest (m + 1) (c :: acc)

/-- Python `s.split(sep, maxsplit)` for a one-character separator string. -/
def pySplit (s : String) (sep : Char) (maxsplit : Nat) : List String :=
  (pySplitAux sep s.data maxsplit []).map String.mk

/-- Re-join split pieces with the separator between them. -/
def sepJoin (sep : Char) : List (List Char) → List Char
  | [] => []
  | [x] => x
  | x :: xs => x ++ sep :: sepJoin sep xs

theorem pySplitAux_ne_nil (sep : Char) (l : List Char) (m : Nat) (acc : List Char) :
    pySplitAux sep l m acc ≠ [] := by
  induction l generalizing m acc with
  | nil => simp [pySplitAux]
  | cons c rest ih =>
    cases m with
    | zero => exact ih 0 (c :: acc)
    | succ m' =>
      show (if c = sep then acc.reverse :: pySplitAux sep rest m' []
        else pySplitAux sep rest (m' + 1) (c :: acc)) ≠ []
      by_cases hc : c = sep
      · simp [hc]
      · rw [if_neg hc]
        exact ih (m' + 1) (c :: acc)

theorem sepJoin_cons (sep : Char) (x : List Char) (xs : List (List Char))
    (h : xs ≠ []) : sepJoin sep (x :: xs) = x ++ sep :: sepJoin sep xs := by
  cases xs with
  | nil => exact absurd rfl h
  | cons y ys => rfl

theorem sepJoin_pySplitAux (sep : Char) (l : List Char) (m : Nat) (acc : List Char) :
    sepJoin sep (pySplitAux sep l m acc) = acc.reverse ++ l := by
  induction l generalizing m acc with
  | nil => simp [pySplitAux, sepJoin]
  | cons c rest ih =>
    cases m with
    | zero =>
      rw [show pySplitAux sep (c :: rest) 0 acc = pySplitAux sep rest 0 (c :: acc)
        from rfl, ih]
      simp
    | succ m' =>
      rw [show pySplitAux sep (c :: rest) (m' + 1) acc
        = (if c = sep then acc.reverse :: pySplitAux sep rest m' []
            else pySplitAux sep rest (m' + 1) (c :: acc)) from rfl]
      by_cases hc : c = sep
      · rw [if_pos hc, sepJoin_cons sep _ _ (pySplitAux_ne_nil sep rest m' []), ih]
        simp [hc]
      · rw [if_neg hc, ih]
        simp

theorem string_data_inj {s t : String} (h : s.data = t.data) : s = t := by
  cases s
  cases t
  exact congrArg String.mk h

/-- A two-piece split determines the original string: the name is namespace
++ separator ++ short name. -/
theorem pySplit_two_shape (s : String) (sep : Char) (a b : String)
    (h : pySplit s sep 2 = [a, b]) : s.data = a.data ++ sep :: b.data := by
  have hL : pySplitAux sep s.data 2 [] = [a.data, b.data] := by
    have hmap := congrArg (List.map String.data) h
    rw [pySplit, List.map_map, show String.data ∘ String.mk = id from rfl,
      List.map_id] at hmap
    simpa using hmap
  have hjoin := sepJoin_pySplitAux sep s.data 2 []
  rw [hL] at hjoin
  simpa [sepJoin] using hjoin.symm

theorem pySplitAux_no_sep (sep : Char) (l : List Char) (hl : sep ∉ l)
    (m : Nat) (acc : List Char) :
    pySplitAux sep l m acc = [acc.reverse ++ l] := by
  induction l generalizing m acc with
  | nil => simp [pySplitAux]
  | cons c rest ih =>
    have hc : ¬ (c = sep) := fun hq => hl (hq ▸ List.mem_cons_self c rest)
    have hrest : sep ∉ rest := fun hq => hl (List.mem_cons_of_mem c hq)
    cases m with
    | zero =>
      rw [show pySplitAux sep (c :: rest) 0 acc = pySplitAux sep rest 0 (c :: acc)
        from rfl, ih hrest]
      simp
    | succ m' =>
      rw [show pySplitAux sep (c :: rest) (m' + 1) acc
        = (if c = sep then acc.reverse :: pySplitAux sep rest m' []
            else pySplitAux sep rest (m' + 1) (c :: acc)) from rfl, if_neg hc,
        ih hrest]
      simp

theorem pySplitAux_one_sep (sep : Char) (a b : List Char) (ha : sep ∉ a)
    (m : Nat) (acc : List Char) :
    pySplitAux sep (a ++ sep :: b) (m + 1) acc
      = (acc.reverse ++ a) :: pySplitAux sep b m [] := by
  induction a generalizing acc with
  | nil =>
    show (if sep = sep then acc.reverse :: pySplitAux sep b m []
      else pySplitAux sep b (m + 1) (sep :: acc)) = _
    rw [if_pos rfl]
    simp
  | cons c a' ih =>
    have hc : ¬ (c = sep) := fun hq => ha (hq ▸ List.mem_cons_self c a')
    have ha' : sep ∉ a' := fun hq => ha (List.mem_cons_of_mem c hq)
    rw [List.cons_append,
      show pySplitAux sep (c :: (a' ++ sep :: b)) (m + 1) acc
        = (if c = sep then acc.reverse :: pySplitAux sep (a' ++ sep :: b) m []
            else pySplitAux sep (a' ++ sep :: b) (m + 1) (c :: acc)) from rfl,
      if_neg hc, ih ha']
    simp

theorem count_one_decomp {α : Type} [DecidableEq α] (x : α) (l : List α)
    (h : l.count x = 1) : ∃ a b, l = a ++ x :: b ∧ x ∉ a ∧ x ∉ b := by
  have hpos : 0 < l.count x := by omega
  have hmem : x ∈ l := List.count_pos_iff.mp hpos
  obtain ⟨a, b, rfl⟩ := List.append_of_mem hmem
  rw [List.count_append, List.count_cons_self] at h
  refine ⟨a, b, rfl, ?_, ?_⟩
  · exact List.count_eq_zero.mp (by omega)
  · exact List.count_eq_zero.mp (by omega)

/-- A name with exactly one separator splits into exactly its two pieces. -/
theorem pySplit_of_count_one (s : String) (sep : Char)
    (h : s.data.count sep = 1) :
    ∃ a b, pySplit s sep 2 = [a, b] := by
  obtain ⟨a, b, hdecomp, hna, hnb⟩ := count_one_decomp sep s.data h
  refine ⟨String.mk a, String.mk b, ?_⟩
  unfold pySplit
  rw [hdecomp, pySplitAux_one_sep sep a b hna 1 [], pySplitAux_no_sep sep b hnb 1 []]
  simp

/-- Record `NamespaceDefs` from the source: one namespace's function and alias dicts.
`F` stands for decoded `TierkreisFunction`, `TS` for decoded `TypeScheme`. -/
structure NamespaceDefs (F TS : Type) where
  functions : Dict String F
  aliases : Dict String TS

/-- One step of the functions loop of `signature_from_proto`:
`namespace, fname = name.split("/", 2)` — a two-element unpacking that raises
`ValueError` (modelled as `.error ()`) for any other number of pieces —
followed by the conditional insert into the namespace-keyed dict. -/
def insertFunction {F TS : Type} (namespaces : Dict String (NamespaceDefs F TS))
    (name : String) (func : F) : Except Unit (Dict String (NamespaceDefs F TS)) :=
  match pySplit name '/' 2 with
  | [nspace, fname] =>
    match dictGet? namespaces nspace with
    | some defs =>
      .ok (dictInsert namespaces nspace
        ⟨dictInsert defs.functions fname func, defs.aliases⟩)
    | none => .ok (dictInsert namespaces nspace ⟨[(fname, func)], []⟩)
  | _ => .error ()

/-- One step of the aliases loop of `signature_from_proto`, symmetric to
`insertFunction`. -/
def insertAlias {F TS : Type} (namespaces : Dict String (NamespaceDefs F TS))
    (name : String) (type_ : TS) : Except Unit (Dict String (NamespaceDefs F TS)) :=
  match pySplit name '/' 2 with
  | [nspace, alias_name] =>
    match dictGet? namespaces nspace with
    | some defs =>
      .ok (dictInsert namespaces nspace
        ⟨defs.functions, dictInsert defs.aliases alias_name type_⟩)
    | none => .ok (dictInsert namespaces nspace ⟨[], [(alias_name, type_)]⟩)
  | _ => .error ()

/-- The functions loop of `signature_from_proto`, iterating the proto entries
in order.  `functionFromProto` stands for `TierkreisFunction.from_proto`. -/
def signatureFunctionsFold {PF F TS : Type} (functionFromProto : PF → F) :
    List (String × PF) → Dict String (NamespaceDefs F TS) →
      Except Unit (Dict String (NamespaceDefs F TS))
  | [], namespaces => .ok namespaces
  | (name, entry) :: rest, namespaces =>
    match insertFunction namespaces name (functionFromProto entry) with
    | .ok ns' => signatureFunctionsFold functionFromProto rest ns'
    | .error e => .error e

/-- The aliases loop of `signature_from_proto`.  `typeSchemeFromProto` stands
for `TypeScheme.from_proto`. -/
def signatureAliasesFold {PT F TS : Type} (typeSchemeFromProto : PT → TS) :
    List (String × PT) → Dict String (NamespaceDefs F TS) →
      Except Unit (Dict String (NamespaceDefs F TS))
  | [], namespaces => .ok namespaces
  | (name, type_proto) :: rest, namespaces =>
    match insertAlias namespaces name (typeSchemeFromProto type_proto) with
    | .ok ns' => signatureAliasesFold typeSchemeFromProto rest ns'
    | .error e => .error e

/-- Top-level `signature_from_proto`: parse the `ListFunctionsResponse` — given by its
function and alias entry lists in iteration order — into the namespace-keyed
registry, functions first, then aliases. -/
def signature_from_proto {PF PT F TS : Type} (functionFromProto : PF → F)
    (typeSchemeFromProto : PT → TS)
    (functions : List (String × PF)) (aliases : List (String × PT)) :
    Except Unit (Dict String (NamespaceDefs F TS)) :=
  match signatureFunctionsFold functionFromProto functions [] with
  | .ok ns => signatureAliasesFold typeSchemeFromProto aliases ns
  | .error e => .error e

/-- Insert a batch of entries into a dict, left to right. -/
def foldInsert {α : Type} (m : Dict String α) (es : Dict String α) : Dict String α :=
  es.foldl (fun m p => dictInsert m p.1 p.2) m

/-- The decoded entries a given namespace receives from one entry list, in
arrival order, keyed by short name.  `decode` is the proto decoder
(`TierkreisFunction.from_proto` for functions, `TypeScheme.from_proto` for
aliases). -/
def nsEntriesOf {PX X : Type} (decode : PX → X)
    (entries : List (String × PX)) (ns : String) : Dict String X :=
  entries.filterMap (fun p =>
    match pySplit p.1 '/' 2 with
    | [a, b] => if a = ns then some (b, decode p.2) else none
    | _ => none)

/-- The effect of one function insert on one namespace's record. -/
def applyFn1 {F TS : Type} (od : Option (NamespaceDefs F TS)) (e : String × F) :
    NamespaceDefs F TS :=
  match od with
  | some defs => ⟨dictInsert defs.functions e.1 e.2, defs.aliases⟩
  | none => ⟨[e], []⟩

/-- The effect of one alias insert on one namespace's record. -/
def applyAl1 {F TS : Type} (od : Option (NamespaceDefs F TS)) (e : String × TS) :
    NamespaceDefs F TS :=
  match od with
  | some defs => ⟨defs.functions, dictInsert defs.aliases e.1 e.2⟩
  | none => ⟨[], [e]⟩

/-- The cumulative effect of a namespace's function entries on its record. -/
def applyFnEntries {F TS : Type} (od : Option (NamespaceDefs F TS))
    (es : Dict String F) : Option (NamespaceDefs F TS) :=
  match od, es with
  | some defs, es => some ⟨foldInsert defs.functions es, defs.aliases⟩
  | none, [] => none
  | none, e :: es => some ⟨foldInsert [e] es, []⟩

/-- The cumulative effect of a namespace's alias entries on its record. -/
def applyAlEntries {F TS : Type} (od : Option (NamespaceDefs F TS))
    (es : Dict String TS) : Option (NamespaceDefs F TS) :=
  match od, es with
  | some defs, es => some ⟨defs.functions, foldInsert defs.aliases es⟩
  | none, [] => none
  | none, e :: es => some ⟨[], foldInsert [e] es⟩

theorem applyFnEntries_nil {F TS : Type} (od : Option (NamespaceDefs F TS)) :
    applyFnEntries od [] = od := by
  cases od <;> rfl

theorem applyAlEntries_nil {F TS : Type} (od : Option (NamespaceDefs F TS)) :
    applyAlEntries od [] = od := by
  cases od <;> rfl

theorem applyFnEntries_cons {F TS : Type} (od : Option (NamespaceDefs F TS))
    (e : String × F) (es : Dict String F) :
    applyFnEntries od (e :: es) = applyFnEntries (some (applyFn1 od e)) es := by
  cases od <;> rfl

theorem applyAlEntries_cons {F TS : Type} (od : Option (NamespaceDefs F TS))
    (e : String × TS) (es : Dict String TS) :
    applyAlEntries od (e :: es) = applyAlEntries (some (applyAl1 od e)) es := by
  cases od <;> rfl

theorem insertFunction_ok {F TS : Type} (D : Dict String (NamespaceDefs F TS))
    (name a b : String) (f : F) (hsplit : pySplit name '/' 2 = [a, b]) :
    insertFunction D name f = .ok (dictInsert D a (applyFn1 (dictGet? D a) (b, f))) := by
  unfold insertFunction
  rw [hsplit]
  cases hd : dictGet? D a with
  | some defs => simp [applyFn1, hd]
  | none => simp [applyFn1, hd]

theorem insertAlias_ok {F TS : Type} (D : Dict String (NamespaceDefs F TS))
    (name a b : String) (t : TS) (hsplit : pySplit name '/' 2 = [a, b]) :
    insertAlias D name t = .ok (dictInsert D a (applyAl1 (dictGet? D a) (b, t))) := by
  unfold insertAlias
  rw [hsplit]
  cases hd : dictGet? D a with
  | some defs => simp [applyAl1, hd]
  | none => simp [applyAl1, hd]

theorem signatureFunctionsFold_char {PF F TS : Type} (functionFromProto : PF → F)
    (functions : List (String × PF))
    (hWF : ∀ p ∈ functions, ∃ a b, pySplit p.1 '/' 2 = [a, b]) :
    ∀ D : Dict String (NamespaceDefs F TS),
      ∃ D', signatureFunctionsFold functionFromProto functions D = .ok D' ∧
        ∀ ns, dictGet? D' ns
          = applyFnEntries (dictGet? D ns) (nsEntriesOf functionFromProto functions ns) := by
  induction functions with
  | nil =>
    intro D
    exact ⟨D, rfl, fun ns => by
      rw [show nsEntriesOf functionFromProto [] ns = [] from rfl, applyFnEntries_nil]⟩
  | cons p rest ih =>
    intro D
    obtain ⟨a, b, hsplit⟩ := hWF p (List.mem_cons_self p rest)
    have hWF' : ∀ q ∈ rest, ∃ a b, pySplit q.1 '/' 2 = [a, b] :=
      fun q hq => hWF q (List.mem_cons_of_mem p hq)
    obtain ⟨D', hD', hchar⟩ :=
      ih hWF' (dictInsert D a (applyFn1 (dictGet? D a) (b, functionFromProto p.2)))
    refine ⟨D', ?_, fun ns => ?_⟩
    · cases p with
      | mk name entry =>
        show (match insertFunction D name (functionFromProto entry) with
          | .ok ns' => signatureFunctionsFold functionFromProto rest ns'
          | .error e => .error e) = .ok D'
        rw [insertFunction_ok D name a b (functionFromProto entry) hsplit]
        exact hD'
    · rw [hchar ns]
      have hcons : nsEntriesOf functionFromProto (p :: rest) ns
          = if a = ns then (b, functionFromProto p.2) :: nsEntriesOf functionFromProto rest ns
            else nsEntriesOf functionFromProto rest ns := by
        unfold nsEntriesOf
        rw [List.filterMap_cons, hsplit]
        by_cases hans : a = ns <;> simp [hans]
      by_cases hans : a = ns
      · subst hans
        rw [hcons, if_pos rfl, applyFnEntries_cons, dictGet?_insert_self]
      · rw [hcons, if_neg hans, dictGet?_insert_ne _ _ _ _ (fun hq => hans hq.symm)]

theorem signatureAliasesFold_char {PT F TS : Type} (typeSchemeFromProto : PT → TS)
    (aliases : List (String × PT))
    (hWF : ∀ p ∈ aliases, ∃ a b, pySplit p.1 '/' 2 = [a, b]) :
    ∀ D : Dict String (NamespaceDefs F TS),
      ∃ D', signatureAliasesFold typeSchemeFromProto aliases D = .ok D' ∧
        ∀ ns, dictGet? D' ns
          = applyAlEntries (dictGet? D ns) (nsEntriesOf typeSchemeFromProto aliases ns) := by
  induction aliases with
  | nil =>
    intro D
    exact ⟨D, rfl, fun ns => by
      rw [show nsEntriesOf typeSchemeFromProto [] ns = [] from rfl, applyAlEntries_nil]⟩
  | cons p rest ih =>
    intro D
    obtain ⟨a, b, hsplit⟩ := hWF p (List.mem_cons_self p rest)
    have hWF' : ∀ q ∈ rest, ∃ a b, pySplit q.1 '/' 2 = [a, b] :=
      fun q hq => hWF q (List.mem_cons_of_mem p hq)
    obtain ⟨D', hD', hchar⟩ :=
      ih hWF' (dictInsert D a (applyAl1 (dictGet? D a) (b, typeSchemeFromProto p.2)))
    refine ⟨D', ?_, fun ns => ?_⟩
    · cases p with
      | mk name tp =>
        show (match insertAlias D name (typeSchemeFromProto tp) with
          | .ok ns' => signatureAliasesFold typeSchemeFromProto rest ns'
          | .error e => .error e) = .ok D'
        rw [insertAlias_ok D name a b (typeSchemeFromProto tp) hsplit]
        exact hD'
    · rw [hchar ns]
      have hcons : nsEntriesOf typeSchemeFromProto (p :: rest) ns
          = if a = ns then (b, typeSchemeFromProto p.2) :: nsEntriesOf typeSchemeFromProto rest ns
            else nsEntriesOf typeSchemeFromProto rest ns := by
        unfold nsEntriesOf
        rw [List.filterMap_cons, hsplit]
        by_cases hans : a = ns <;> simp [hans]
      by_cases hans : a = ns
      · subst hans
        rw [hcons, if_pos rfl, applyAlEntries_cons, dictGet?_insert_self]
      · rw [hcons, if_neg hans, dictGet?_insert_ne _ _ _ _ (fun hq => hans hq.symm)]

/-- Characterization of the full parse: under two-piece names, parsing
succeeds and each namespace's record is exactly its accumulated function and
alias entries. -/
theorem signature_from_proto_char {PF PT F TS : Type} (functionFromProto : PF → F)
    (typeSchemeFromProto : PT → TS)
    (functions : List (String × PF)) (aliases : List (String × PT))
    (hWFf : ∀ p ∈ functions, ∃ a b, pySplit p.1 '/' 2 = [a, b])
    (hWFa : ∀ p ∈ aliases, ∃ a b, pySplit p.1 '/' 2 = [a, b]) :
    ∃ D, signature_from_proto functionFromProto typeSchemeFromProto functions aliases
        = .ok D ∧
      ∀ ns, dictGet? D ns
        = applyAlEntries
            (applyFnEntries none (nsEntriesOf functionFromProto functions ns))
            (nsEntriesOf typeSchemeFromProto aliases ns) := by
  obtain ⟨D1, hD1, hchar1⟩ :=
    signatureFunctionsFold_char functionFromProto functions hWFf
      ([] : Dict String (NamespaceDefs F TS))
  obtain ⟨D2, hD2, hchar2⟩ := signatureAliasesFold_char typeSchemeFromProto aliases hWFa D1
  refine ⟨D2, ?_, fun ns => ?_⟩
  · unfold signature_from_proto
    rw [hD1]
    exact hD2
  · rw [hchar2 ns, hchar1 ns]
    rfl

theorem dictGet?_cons {κ α : Type} [DecidableEq κ] (p : κ × α) (d : Dict κ α) (k : κ) :
    dictGet? (p :: d) k = if p.1 = k then some p.2 else dictGet? d k := by
  by_cases hp : p.1 = k
  · rw [if_pos hp]
    unfold dictGet?
    rw [List.find?_cons_of_pos _ (by simpa using hp)]
    rfl
  · rw [if_neg hp]
    unfold dictGet?
    rw [List.find?_cons_of_neg _ (by simpa using hp)]

theorem dictMem_iff_mem_keys {κ α : Type} [DecidableEq κ] (d : Dict κ α) (k : κ) :
    dictMem d k = true ↔ k ∈ dictKeys d := by
  unfold dictMem dictKeys
  rw [List.any_eq_true]
  constructor
  · rintro ⟨p, hp, hpk⟩
    exact List.mem_map.mpr ⟨p, hp, by simpa using hpk⟩
  · rintro hk
    obtain ⟨p, hp, hpk⟩ := List.mem_map.mp hk
    exact ⟨p, hp, by simpa using hpk⟩

theorem dictGet?_eq_none_of_not_mem_keys {κ α : Type} [DecidableEq κ]
    (d : Dict κ α) (k : κ) (h : k ∉ dictKeys d) : dictGet? d k = none := by
  unfold dictGet?
  rw [find?_not_mem d k (fun hm => h ((dictMem_iff_mem_keys d k).mp hm))]
  rfl

theorem dictGet?_foldInsert_nodup {α : Type} (es : Dict String α)
    (hnd : (dictKeys es).Nodup) (m : Dict String α) (k : String) :
    dictGet? (foldInsert m es) k
      = match dictGet? es k with
        | some v => some v
        | none => dictGet? m k := by
  induction es generalizing m with
  | nil => rfl
  | cons e rest ih =>
    rw [dictKeys_cons] at hnd
    have hnd' : (dictKeys rest).Nodup := (List.nodup_cons.mp hnd).2
    have hnotin : e.1 ∉ dictKeys rest := (List.nodup_cons.mp hnd).1
    rw [show foldInsert m (e :: rest) = foldInsert (dictInsert m e.1 e.2) rest from rfl,
      ih hnd', dictGet?_cons]
    by_cases hek : e.1 = k
    · rw [if_pos hek]
      rw [dictGet?_eq_none_of_not_mem_keys rest k (hek ▸ hnotin)]
      rw [hek, dictGet?_insert_self]
    · rw [if_neg hek]
      cases dictGet? rest k with
      | some v => rfl
      | none => exact dictGet?_insert_ne m e.1 k e.2 (fun hq => hek hq.symm)

theorem dictGet?_of_mem_nodup {κ α : Type} [DecidableEq κ] (d : Dict κ α)
    (k : κ) (v : α) (hmem : (k, v) ∈ d) (hnd : (dictKeys d).Nodup) :
    dictGet? d k = some v := by
  induction d with
  | nil => cases hmem
  | cons p rest ih =>
    rw [dictKeys_cons] at hnd
    rcases List.mem_cons.mp hmem with rfl | hrest
    · rw [dictGet?_cons, if_pos rfl]
    · rw [dictGet?_cons]
      have hne : ¬ (p.1 = k) := by
        intro hpk
        exact (List.nodup_cons.mp hnd).1
          (hpk ▸ List.mem_map.mpr ⟨(k, v), hrest, rfl⟩)
      rw [if_neg hne]
      exact ih hrest (List.nodup_cons.mp hnd).2

theorem dictGet?_perm {κ α : Type} [DecidableEq κ] (d d' : Dict κ α)
    (hperm : d.Perm d') (hnd : (dictKeys d).Nodup) (k : κ) :
    dictGet? d k = dictGet? d' k := by
  induction hperm with
  | nil => rfl
  | cons x hp ih =>
    rw [dictGet?_cons, dictGet?_cons]
    by_cases hx : x.1 = k
    · rw [if_pos hx, if_pos hx]
    · rw [if_neg hx, if_neg hx]
      rw [dictKeys_cons] at hnd
      exact ih (List.nodup_cons.mp hnd).2
  | swap x y l =>
    rw [dictGet?_cons, dictGet?_cons, dictGet?_cons, dictGet?_cons]
    by_cases hy : y.1 = k
    · rw [if_pos hy]
      by_cases hx : x.1 = k
      · exfalso
        rw [dictKeys_cons, dictKeys_cons] at hnd
        exact (List.nodup_cons.mp hnd).1 (by
          rw [hy, ← hx]
          exact List.mem_cons_self x.1 _)
      · rw [if_neg hx, if_pos hy]
    · rw [if_neg hy]
      by_cases hx : x.1 = k
      · rw [if_pos hx, if_pos hx]
      · rw [if_neg hx, if_neg hx, if_neg hy]
  | trans h1 h2 ih1 ih2 =>
    rename_i l1 l2 l3
    refine (ih1 hnd).trans (ih2 ?_)
    have hkeys : (dictKeys l1).Perm (dictKeys l2) := h1.map (fun p : κ × α => p.1)
    exact hkeys.nodup_iff.mp hnd

theorem entry_select_eq_some {PX X : Type} (decode : PX → X) (ns : String)
    (p : String × PX) (e : String × X)
    (h : (match pySplit p.1 '/' 2 with
          | [a, b] => if a = ns then some ((b, decode p.2) : String × X) else none
          | _ => none) = some e) :
    pySplit p.1 '/' 2 = [ns, e.1] ∧ e.2 = decode p.2 := by
  cases hsp : pySplit p.1 '/' 2 with
  | nil => rw [hsp] at h; cases h
  | cons a t =>
    cases t with
    | nil => rw [hsp] at h; cases h
    | cons b t' =>
      cases t' with
      | nil =>
        rw [hsp] at h
        by_cases hans : a = ns
        · have h' : some ((b, decode p.2) : String × X) = some e := by
            rw [← h]
            show _ = (if a = ns then some ((b, decode p.2) : String × X) else none)
            rw [if_pos hans]
          have he := Option.some.inj h'
          refine ⟨by rw [hans, ← he], by rw [← he]⟩
        · have h' : (none : Option (String × X)) = some e := by
            rw [← h]
            show _ = (if a = ns then some ((b, decode p.2) : String × X) else none)
            rw [if_neg hans]
          cases h'
      | cons c t'' => rw [hsp] at h; cases h

theorem mem_nsEntriesOf {PX X : Type} (decode : PX → X)
    (entries : List (String × PX)) (ns : String) (e : String × X)
    (h : e ∈ nsEntriesOf decode entries ns) :
    ∃ p ∈ entries, pySplit p.1 '/' 2 = [ns, e.1] ∧ e.2 = decode p.2 := by
  obtain ⟨p, hp, hfp⟩ := List.mem_filterMap.mp h
  exact ⟨p, hp, entry_select_eq_some decode ns p e hfp⟩

theorem nsEntriesOf_mem {PX X : Type} (decode : PX → X)
    (entries : List (String × PX)) (name : String) (entry : PX) (a b : String)
    (hmem : (name, entry) ∈ entries) (hsplit : pySplit name '/' 2 = [a, b]) :
    (b, decode entry) ∈ nsEntriesOf decode entries a := by
  apply List.mem_filterMap.mpr
  refine ⟨(name, entry), hmem, ?_⟩
  show (match pySplit name '/' 2 with
      | [x, y] => if x = a then some ((y, decode entry) : String × X) else none
      | _ => none) = some (b, decode entry)
  rw [hsplit]
  show (if a = a then some ((b, decode entry) : String × X) else none) = _
  rw [if_pos rfl]

theorem mem_keys_iff {κ α : Type} (d : Dict κ α) (k : κ) :
    k ∈ dictKeys d ↔ ∃ w, (k, w) ∈ d := by
  unfold dictKeys
  rw [List.mem_map]
  constructor
  · rintro ⟨q, hq, rfl⟩
    exact ⟨q.2, by simpa using hq⟩
  · rintro ⟨w, hw⟩
    exact ⟨(k, w), hw, rfl⟩

theorem nsEntriesOf_keys_nodup {PX X : Type} (decode : PX → X)
    (entries : List (String × PX)) (ns : String)
    (hnd : (entries.map (fun p => p.1)).Nodup) :
    (dictKeys (nsEntriesOf decode entries ns)).Nodup := by
  induction entries with
  | nil => exact List.nodup_nil
  | cons p rest ih =>
    rw [List.map_cons] at hnd
    have hnd' := (List.nodup_cons.mp hnd).2
    rw [nsEntriesOf, List.filterMap_cons]
    cases hsel : (match pySplit p.1 '/' 2 with
        | [a, b] => if a = ns then some ((b, decode p.2) : String × X) else none
        | _ => none) with
    | none => exact ih hnd'
    | some e =>
      rw [dictKeys_cons]
      refine List.nodup_cons.mpr ⟨?_, ih hnd'⟩
      intro hmemk
      obtain ⟨w, hw⟩ := (mem_keys_iff _ _).mp hmemk
      obtain ⟨q, hq, hqsplit, _⟩ := mem_nsEntriesOf decode rest ns (e.1, w) hw
      obtain ⟨hpsplit, _⟩ := entry_select_eq_some decode ns p e hsel
      have hpq : p.1 = q.1 := string_data_inj (by
        rw [pySplit_two_shape p.1 '/' ns e.1 hpsplit,
          pySplit_two_shape q.1 '/' ns e.1 hqsplit])
      exact (List.nodup_cons.mp hnd).1 (hpq ▸ List.mem_map.mpr ⟨q, hq, rfl⟩)

theorem signatureFunctionsFold_nodup {PF F TS : Type} (functionFromProto : PF → F)
    (functions : List (String × PF))
    (hWF : ∀ p ∈ functions, ∃ a b, pySplit p.1 '/' 2 = [a, b]) :
    ∀ (D D' : Dict String (NamespaceDefs F TS)),
      signatureFunctionsFold functionFromProto functions D = .ok D' →
      (dictKeys D).Nodup → (dictKeys D').Nodup := by
  induction functions with
  | nil =>
    intro D D' h hD
    obtain rfl := Except.ok.inj h
    exact hD
  | cons p rest ih =>
    intro D D' h hD
    obtain ⟨a, b, hsplit⟩ := hWF p (List.mem_cons_self p rest)
    have hWF' : ∀ q ∈ rest, ∃ a b, pySplit q.1 '/' 2 = [a, b] :=
      fun q hq => hWF q (List.mem_cons_of_mem p hq)
    cases p with
    | mk name entry =>
      rw [show signatureFunctionsFold functionFromProto ((name, entry) :: rest) D
        = (match insertFunction D name (functionFromProto entry) with
            | .ok ns' => signatureFunctionsFold functionFromProto rest ns'
            | .error e => .error e) from rfl,
        insertFunction_ok D name a b (functionFromProto entry) hsplit] at h
      exact ih hWF' _ _ h (dictKeys_insert_nodup _ _ _ hD)

theorem signatureAliasesFold_nodup {PT F TS : Type} (typeSchemeFromProto : PT → TS)
    (aliases : List (String × PT))
    (hWF : ∀ p ∈ aliases, ∃ a b, pySplit p.1 '/' 2 = [a, b]) :
    ∀ (D D' : Dict String (NamespaceDefs F TS)),
      signatureAliasesFold typeSchemeFromProto aliases D = .ok D' →
      (dictKeys D).Nodup → (dictKeys D').Nodup := by
  induction aliases with
  | nil =>
    intro D D' h hD
    obtain rfl := Except.ok.inj h
    exact hD
  | cons p rest ih =>
    intro D D' h hD
    obtain ⟨a, b, hsplit⟩ := hWF p (List.mem_cons_self p rest)
    have hWF' : ∀ q ∈ rest, ∃ a b, pySplit q.1 '/' 2 = [a, b] :=
      fun q hq => hWF q (List.mem_cons_of_mem p hq)
    cases p with
    | mk name tp =>
      rw [show signatureAliasesFold typeSchemeFromProto ((name, tp) :: rest) D
        = (match insertAlias D name (typeSchemeFromProto tp) with
            | .ok ns' => signatureAliasesFold typeSchemeFromProto rest ns'
            | .error e => .error e) from rfl,
        insertAlias_ok D name a b (typeSchemeFromProto tp) hsplit] at h
      exact ih hWF' _ _ h (dictKeys_insert_nodup _ _ _ hD)

/-- Looking up one function through the registry: namespace, then short name. -/
def fnLookup {F TS : Type} (D : Dict String (NamespaceDefs F TS)) (ns k : String) :
    Option F :=
  (dictGet? D ns).bind (fun defs => dictGet? defs.functions k)

/-- Looking up one alias through the registry. -/
def alLookup {F TS : Type} (D : Dict String (NamespaceDefs F TS)) (ns k : String) :
    Option TS :=
  (dictGet? D ns).bind (fun defs => dictGet? defs.aliases k)

/-- Full lookup characterization of a successful parse: each namespace's
functions (resp. aliases) dict answers exactly as the accumulated entry
inserts for that namespace, and a namespace is present iff it received at
least one entry. -/
theorem signature_lookups {PF PT F TS : Type} (functionFromProto : PF → F)
    (typeSchemeFromProto : PT → TS)
    (functions : List (String × PF)) (aliases : List (String × PT))
    (hWFf : ∀ p ∈ functions, ∃ a b, pySplit p.1 '/' 2 = [a, b])
    (hWFa : ∀ p ∈ aliases, ∃ a b, pySplit p.1 '/' 2 = [a, b]) :
    ∃ D, signature_from_proto functionFromProto typeSchemeFromProto functions aliases
        = .ok D ∧
      (dictKeys D).Nodup ∧
      ∀ ns, ((dictGet? D ns).isSome ↔
          (nsEntriesOf functionFromProto functions ns ≠ [] ∨
            nsEntriesOf typeSchemeFromProto aliases ns ≠ [])) ∧
        ∀ k, fnLookup D ns k
            = dictGet? (foldInsert [] (nsEntriesOf functionFromProto functions ns)) k ∧
          alLookup D ns k
            = dictGet? (foldInsert [] (nsEntriesOf typeSchemeFromProto aliases ns)) k := by
  obtain ⟨D1, hD1, hchar1⟩ :=
    signatureFunctionsFold_char functionFromProto functions hWFf
      ([] : Dict String (NamespaceDefs F TS))
  obtain ⟨D2, hD2, hchar2⟩ :=
    signatureAliasesFold_char typeSchemeFromProto aliases hWFa D1
  have hok : signature_from_proto functionFromProto typeSchemeFromProto functions aliases
      = .ok D2 := by
    unfold signature_from_proto
    rw [hD1]
    exact hD2
  have hnd1 : (dictKeys D1).Nodup :=
    signatureFunctionsFold_nodup functionFromProto functions hWFf [] D1 hD1 List.nodup_nil
  have hnd2 : (dictKeys D2).Nodup :=
    signatureAliasesFold_nodup typeSchemeFromProto aliases hWFa D1 D2 hD2 hnd1
  refine ⟨D2, hok, hnd2, fun ns => ?_⟩
  have hDns : dictGet? D2 ns
      = applyAlEntries (applyFnEntries none (nsEntriesOf functionFromProto functions ns))
          (nsEntriesOf typeSchemeFromProto aliases ns) := by
    rw [hchar2 ns, hchar1 ns]
    rfl
  cases hfe : nsEntriesOf functionFromProto functions ns with
  | nil =>
    cases hae : nsEntriesOf typeSchemeFromProto aliases ns with
    | nil =>
      rw [hfe, hae] at hDns
      refine ⟨?_, fun k => ?_⟩
      · rw [hDns]
        simp [applyFnEntries, applyAlEntries]
      · unfold fnLookup alLookup
        rw [hDns]
        exact ⟨rfl, rfl⟩
    | cons e es =>
      rw [hfe, hae] at hDns
      refine ⟨?_, fun k => ?_⟩
      · rw [hDns]
        simp [applyFnEntries, applyAlEntries]
      · unfold fnLookup alLookup
        rw [hDns]
        exact ⟨rfl, rfl⟩
  | cons f fs =>
    rw [hfe] at hDns
    refine ⟨?_, fun k => ?_⟩
    · rw [hDns]
      simp [applyFnEntries, applyAlEntries]
    · unfold fnLookup alLookup
      rw [hDns]
      exact ⟨rfl, rfl⟩

/-- C5 (amended): for responses whose function and alias names each contain
exactly one `/`, parsing splits every name at that separator and succeeds;
the registry has no duplicate namespace key, so a namespace occurring among
both function and alias entries owns exactly one merged record holding all of
its functions and all of its aliases; a namespace without an existing entry
gets a fresh record rather than an error; and the lookup content of the
registry is independent of the arrival order of the entries. -/
theorem signature_merge {PF PT F TS : Type} (functionFromProto : PF → F)
    (typeSchemeFromProto : PT → TS)
    (functions : List (String × PF)) (aliases : List (String × PT))
    (hWFf : ∀ p ∈ functions, p.1.data.count '/' = 1)
    (hWFa : ∀ p ∈ aliases, p.1.data.count '/' = 1)
    (hndF : (functions.map (fun p => p.1)).Nodup)
    (hndA : (aliases.map (fun p => p.1)).Nodup) :
    ∃ D, signature_from_proto functionFromProto typeSchemeFromProto functions aliases
        = .ok D ∧
      (dictKeys D).Nodup ∧
      (∀ name entry a b, (name, entry) ∈ functions → pySplit name '/' 2 = [a, b] →
        ∃ defs, dictGet? D a = some defs ∧
          dictGet? defs.functions b = some (functionFromProto entry)) ∧
      (∀ name tp a b, (name, tp) ∈ aliases → pySplit name '/' 2 = [a, b] →
        ∃ defs, dictGet? D a = some defs ∧
          dictGet? defs.aliases b = some (typeSchemeFromProto tp)) ∧
      (∀ functions' aliases', functions.Perm functions' → aliases.Perm aliases' →
        ∃ D', signature_from_proto functionFromProto typeSchemeFromProto
            functions' aliases' = .ok D' ∧
          ∀ ns, ((dictGet? D ns).isSome ↔ (dictGet? D' ns).isSome) ∧
            ∀ k, fnLookup D ns k = fnLookup D' ns k ∧
              alLookup D ns k = alLookup D' ns k) := by
  have hWFf' : ∀ p ∈ functions, ∃ a b, pySplit p.1 '/' 2 = [a, b] :=
    fun p hp => pySplit_of_count_one p.1 '/' (hWFf p hp)
  have hWFa' : ∀ p ∈ aliases, ∃ a b, pySplit p.1 '/' 2 = [a, b] :=
    fun p hp => pySplit_of_count_one p.1 '/' (hWFa p hp)
  obtain ⟨D, hok, hnd, hns⟩ := signature_lookups functionFromProto typeSchemeFromProto
    functions aliases hWFf' hWFa'
  refine ⟨D, hok, hnd, ?_, ?_, ?_⟩
  · intro name entry a b hmem hsplit
    have hmem' : (b, functionFromProto entry) ∈ nsEntriesOf functionFromProto functions a :=
      nsEntriesOf_mem functionFromProto functions name entry a b hmem hsplit
    have hkeysnd := nsEntriesOf_keys_nodup functionFromProto functions a hndF
    have hget : dictGet? (nsEntriesOf functionFromProto functions a) b
        = some (functionFromProto entry) :=
      dictGet?_of_mem_nodup _ _ _ hmem' hkeysnd
    have hfl : fnLookup D a b = some (functionFromProto entry) := by
      rw [((hns a).2 b).1, dictGet?_foldInsert_nodup _ hkeysnd [] b, hget]
    unfold fnLookup at hfl
    obtain ⟨defs, hdefs, hval⟩ := Option.bind_eq_some.mp hfl
    exact ⟨defs, hdefs, hval⟩
  · intro name tp a b hmem hsplit
    have hmem' : (b, typeSchemeFromProto tp) ∈ nsEntriesOf typeSchemeFromProto aliases a :=
      nsEntriesOf_mem typeSchemeFromProto aliases name tp a b hmem hsplit
    have hkeysnd := nsEntriesOf_keys_nodup typeSchemeFromProto aliases a hndA
    have hget : dictGet? (nsEntriesOf typeSchemeFromProto aliases a) b
        = some (typeSchemeFromProto tp) :=
      dictGet?_of_mem_nodup _ _ _ hmem' hkeysnd
    have hal : alLookup D a b = some (typeSchemeFromProto tp) := by
      rw [((hns a).2 b).2, dictGet?_foldInsert_nodup _ hkeysnd [] b, hget]
    unfold alLookup at hal
    obtain ⟨defs, hdefs, hval⟩ := Option.bind_eq_some.mp hal
    exact ⟨defs, hdefs, hval⟩
  · intro functions' aliases' hpF hpA
    have hWFf'' : ∀ p ∈ functions', ∃ a b, pySplit p.1 '/' 2 = [a, b] :=
      fun p hp => hWFf' p (hpF.mem_iff.mpr hp)
    have hWFa'' : ∀ p ∈ aliases', ∃ a b, pySplit p.1 '/' 2 = [a, b] :=
      fun p hp => hWFa' p (hpA.mem_iff.mpr hp)
    have hndF' : (functions'.map (fun p => p.1)).Nodup :=
      ((hpF.map (fun p => p.1)).nodup_iff).mp hndF
    have hndA' : (aliases'.map (fun p => p.1)).Nodup :=
      ((hpA.map (fun p => p.1)).nodup_iff).mp hndA
    obtain ⟨D', hok', hnd', hns'⟩ := signature_lookups functionFromProto typeSchemeFromProto
      functions' aliases' hWFf'' hWFa''
    refine ⟨D', hok', fun ns => ⟨?_, fun k => ⟨?_, ?_⟩⟩⟩
    · have hfeperm : (nsEntriesOf functionFromProto functions ns).Perm
          (nsEntriesOf functionFromProto functions' ns) := hpF.filterMap _
      have haeperm : (nsEntriesOf typeSchemeFromProto aliases ns).Perm
          (nsEntriesOf typeSchemeFromProto aliases' ns) := hpA.filterMap _
      have hiff1 : nsEntriesOf functionFromProto functions ns = []
          ↔ nsEntriesOf functionFromProto functions' ns = [] :=
        ⟨fun h => ((h ▸ hfeperm).symm).eq_nil, fun h => (h ▸ hfeperm).eq_nil⟩
      have hiff2 : nsEntriesOf typeSchemeFromProto aliases ns = []
          ↔ nsEntriesOf typeSchemeFromProto aliases' ns = [] :=
        ⟨fun h => ((h ▸ haeperm).symm).eq_nil, fun h => (h ▸ haeperm).eq_nil⟩
      rw [(hns ns).1, (hns' ns).1]
      constructor
      · rintro (h | h)
        · exact Or.inl (fun hq => h (hiff1.mpr hq))
        · exact Or.inr (fun hq => h (hiff2.mpr hq))
      · rintro (h | h)
        · exact Or.inl (fun hq => h (hiff1.mp hq))
        · exact Or.inr (fun hq => h (hiff2.mp hq))
    · have hfeperm : (nsEntriesOf functionFromProto functions ns).Perm
          (nsEntriesOf functionFromProto functions' ns) := hpF.filterMap _
      have hkeysnd := nsEntriesOf_keys_nodup functionFromProto functions ns hndF
      have hkeysnd' := nsEntriesOf_keys_nodup functionFromProto functions' ns hndF'
      rw [((hns ns).2 k).1, ((hns' ns).2 k).1,
        dictGet?_foldInsert_nodup _ hkeysnd [] k,
        dictGet?_foldInsert_nodup _ hkeysnd' [] k,
        dictGet?_perm _ _ hfeperm hkeysnd k]
    · have haeperm : (nsEntriesOf typeSchemeFromProto aliases ns).Perm
          (nsEntriesOf typeSchemeFromProto aliases' ns) := hpA.filterMap _
      have hkeysnd := nsEntriesOf_keys_nodup typeSchemeFromProto aliases ns hndA
      have hkeysnd' := nsEntriesOf_keys_nodup typeSchemeFromProto aliases' ns hndA'
      rw [((hns ns).2 k).2, ((hns' ns).2 k).2,
        dictGet?_foldInsert_nodup _ hkeysnd [] k,
        dictGet?_foldInsert_nodup _ hkeysnd' [] k,
        dictGet?_perm _ _ haeperm hkeysnd k]

/-- Counterexample to C5 as stated for every response: on the function entry
"a/b/c" (two separators) the source's `name.split("/", 2)` yields three
pieces, the two-element unpacking raises `ValueError`, and no registry is
produced — the code does not split at the first separator and insert. -/
theorem signature_merge_counterexample :
    signature_from_proto (id : Unit → Unit) (id : Unit → Unit) [("a/b/c", ())] []
      = .error () ∧
    ∀ D, signature_from_proto (id : Unit → Unit) (id : Unit → Unit) [("a/b/c", ())] []
      ≠ .ok D := by
  refine ⟨rfl, fun D h => ?_⟩
  rw [show signature_from_proto (id : Unit → Unit) (id : Unit → Unit) [("a/b/c", ())] []
    = .error () from rfl] at h
  cases h

/-- Witness for C5 at the spec's example: function entries "qubit/h" and
"qubit/x" and alias entry "qubit/QubitAlias" produce one merged "qubit"
record holding both functions and the alias. -/
theorem signature_merge_witness :
    ∃ D, signature_from_proto (id : Nat → Nat) (id : Nat → Nat)
        [("qubit/h", 0), ("qubit/x", 1)] [("qubit/QubitAlias", 2)] = .ok D ∧
      ∃ defs, dictGet? D "qubit" = some defs ∧
        dictGet? defs.functions "h" = some 0 ∧
        dictGet? defs.functions "x" = some 1 ∧
        dictGet? defs.aliases "QubitAlias" = some 2 := by
  obtain ⟨D, hok, hnd, hfn, hal, hperm⟩ := signature_merge (id : Nat → Nat) (id : Nat → Nat)
    [("qubit/h", 0), ("qubit/x", 1)] [("qubit/QubitAlias", 2)]
    (by decide) (by decide) (by decide) (by decide)
  obtain ⟨defs1, hD1, hh⟩ := hfn "qubit/h" 0 "qubit" "h" (by simp) (by decide)
  obtain ⟨defs2, hD2, hx⟩ := hfn "qubit/x" 1 "qubit" "x" (by simp) (by decide)
  obtain ⟨defs3, hD3, ha⟩ := hal "qubit/QubitAlias" 2 "qubit" "QubitAlias" (by simp) (by decide)
  have e2 : defs2 = defs1 := Option.some.inj (hD2.symm.trans hD1)
  have e3 : defs3 = defs1 := Option.some.inj (hD3.symm.trans hD1)
  exact ⟨D, hok, defs1, hD1, hh, e2 ▸ hx, e3 ▸ ha⟩

/-- C10: signature parsing is total only for names with exactly one "/": a
function or alias entry whose name has no separator, or two or more, makes
`signature_from_proto` raise the unpacking `ValueError` instead of producing
a registry, while every response whose names all have exactly one separator
parses successfully. -/
theorem signature_parse_totality :
    signature_from_proto (id : Unit → Unit) (id : Unit → Unit) [("nosep", ())] []
      = .error () ∧
    signature_from_proto (id : Unit → Unit) (id : Unit → Unit) [("x/y/z", ())] []
      = .error () ∧
    signature_from_proto (id : Unit → Unit) (id : Unit → Unit) [] [("alias", ())]
      = .error () ∧
    ∀ (PF PT F TS : Type) (functionFromProto : PF → F) (typeSchemeFromProto : PT → TS)
      (functions : List (String × PF)) (aliases : List (String × PT)),
      (∀ p ∈ functions, p.1.data.count '/' = 1) →
      (∀ p ∈ aliases, p.1.data.count '/' = 1) →
      ∃ D, signature_from_proto functionFromProto typeSchemeFromProto functions aliases
        = .ok D := by
  refine ⟨rfl, rfl, rfl, ?_⟩
  intro PF PT F TS functionFromProto typeSchemeFromProto functions aliases hWFf hWFa
  obtain ⟨D, hok, _⟩ := signature_lookups functionFromProto typeSchemeFromProto
    functions aliases
    (fun p hp => pySplit_of_count_one p.1 '/' (hWFf p hp))
    (fun p hp => pySplit_of_count_one p.1 '/' (hWFa p hp))
  exact ⟨D, hok⟩

/-- Witness for C10's totality part at a concrete one-separator response. -/
theorem signature_parse_totality_witness :
    ∃ D, signature_from_proto (id : Unit → Unit) (id : Unit → Unit)
        [("ns/f", ())] [("ns/a", ())] = .ok D :=
  signature_parse_totality.2.2.2 Unit Unit Unit Unit id id
    [("ns/f", ())] [("ns/a", ())] (by decide) (by decide)

end Tierkreis
